import Mathlib

/-
Verification of the native reduction kernels of chainerx
(chainerx_cc/chainerx/native/native_device/reduction.cc).

The file embeds the four operation adapters (ArgMax, ArgMin, Sum, AMax)
and the generic reduction engine they invoke.  The adapters' policies
(Identity / MapIn / Reduce / MapOut) are translated directly from the
source.  The engine `Reduce` and the shape predicate
`IsValidReductionShape` live in headers outside the excerpt
(chainerx/native/reduce.h, chainerx/shape.h) and are modelled from the
specification: the engine visits each reduction group's elements in
ascending flat-index order and folds them with the policy.

Floating-point elements are modelled by `FVal`: NaN, the two infinities,
and exact finite values (rationals).  Only the operations the kernels
use are provided: strict comparison (false on NaN operands), the NaN
test, and the lowest-or-infinity identity of AMax.
-/

namespace ChainerxReduction

/-- Model of a floating-point element as observed by the reduction
kernels: NaN, negative infinity, positive infinity, or an exact finite
value. -/
inductive FVal : Type
  | nan : FVal
  | ninf : FVal
  | pinf : FVal
  | fin : ℚ → FVal
deriving DecidableEq

instance : Inhabited FVal := ⟨FVal.fin 0⟩

/-- IEEE strict less-than on the float model: every comparison with a
NaN operand is false. -/
def flt : FVal → FVal → Bool
  | FVal.nan, _ => false
  | _, FVal.nan => false
  | FVal.ninf, FVal.ninf => false
  | FVal.ninf, _ => true
  | FVal.pinf, _ => false
  | FVal.fin _, FVal.pinf => true
  | FVal.fin _, FVal.ninf => false
  | FVal.fin a, FVal.fin b => decide (a < b)

/-- IEEE less-or-equal on the float model: every comparison with a NaN
operand is false. -/
def fle : FVal → FVal → Bool
  | FVal.nan, _ => false
  | _, FVal.nan => false
  | FVal.ninf, _ => true
  | _, FVal.ninf => false
  | _, FVal.pinf => true
  | FVal.pinf, _ => false
  | FVal.fin a, FVal.fin b => decide (a ≤ b)

/-- chainerx::IsNan on the float model. -/
def IsNan : FVal → Bool
  | FVal.nan => true
  | _ => false

/-- NumericLimits<T>::LowestOrInf() for a floating element type:
negative infinity. -/
def LowestOrInf : FVal := FVal.ninf

/-- A reduction policy: the stateless bundle Identity / MapIn /
Reduce / MapOut an adapter hands to the engine.  `reduce next accum`
returns the new accumulator (the source mutates `accum` in place). -/
structure RPolicy (In Acc Out : Type) where
  identity : Acc
  mapIn : In → Int → Acc
  reduce : Acc → Acc → Acc
  mapOut : Acc → Out

/-- Fold one reduction group: start from the identity, fold each
(element, flat index) pair in list order with
`accum = reduce (mapIn e i) accum`, and project with mapOut. -/
def foldGroup {In Acc Out : Type} (p : RPolicy In Acc Out) (l : List (In × Int)) : Out :=
  p.mapOut (l.foldl (fun acc q => p.reduce (p.mapIn q.1 q.2) acc) p.identity)

/-- Shift a set of reduction axes past one leading dimension: drop
axis 0 and renumber the rest. -/
def shiftAxes (axes : List Nat) : List Nat :=
  (axes.filter (fun a => decide (a ≠ 0))).map (fun a => a - 1)

/-- The drop-mode reduction output shape: the input shape with every
reduced axis removed, the relative order of the remaining axes kept. -/
def dropShape : List Nat → List Nat → List Nat
  | [], _ => []
  | s :: ss, axes =>
    if axes.contains 0 then dropShape ss (shiftAxes axes)
    else s :: dropShape ss (shiftAxes axes)

/-- The keep-dims reduction output shape: the input shape with every
reduced axis set to 1. -/
def keepShape : List Nat → List Nat → List Nat
  | [], _ => []
  | s :: ss, axes =>
    (if axes.contains 0 then 1 else s) :: keepShape ss (shiftAxes axes)

/-- Modelled from the spec: internal::IsValidReductionShape
(chainerx/shape.h, not part of the excerpt).  True iff the output shape
equals the input shape with every reduced axis removed (drop mode) or,
when allowKeepDims is set, with every reduced axis set to 1. -/
def IsValidReductionShape (inShape axes outShape : List Nat) (allowKeepDims : Bool) : Bool :=
  decide (outShape = dropShape inShape axes) ||
    (allowKeepDims && decide (outShape = keepShape inShape axes))

/-- Modelled from the spec: the flat output index of the group that the
input element with flat (row-major) index i belongs to — the kept-axes
coordinate of i, flattened in the drop-mode output shape. -/
def groupKey : List Nat → List Nat → Nat → Nat
  | [], _, _ => 0
  | _ :: ss, axes, i =>
    if axes.contains 0 then groupKey ss (shiftAxes axes) (i % ss.prod)
    else (i / ss.prod) * (dropShape ss (shiftAxes axes)).prod +
      groupKey ss (shiftAxes axes) (i % ss.prod)

/-- The flat indices of the input elements of group j, in ascending
order. -/
def groupIndices (shape axes : List Nat) (j : Nat) : List Nat :=
  (List.range shape.prod).filter (fun i => decide (groupKey shape axes i = j))

/-- The values of group j, in ascending flat-index order. -/
def groupValues {In : Type} [Inhabited In] (shape axes : List Nat) (data : List In)
    (j : Nat) : List In :=
  (groupIndices shape axes j).map (fun i => data.getD i default)

/-- Pair each element of l with its linear position, starting at k. -/
def posPairs {In : Type} (k : Nat) (l : List In) : List (In × Int) :=
  (List.enumFrom k l).map (fun q => (q.2, (q.1 : Int)))

/-- Pair each group element with its linear position inside the group:
the index the engine hands to MapIn. -/
def withPositions {In : Type} (l : List In) : List (In × Int) :=
  posPairs 0 l

/-- Modelled from the spec: the reduction engine Reduce
(chainerx/native/reduce.h, not part of the excerpt).  For every output
element, in output memory order, it folds the elements of the
corresponding group — visited in ascending flat-index order, each
carrying its linear position within the group's reduced index space —
using the policy. -/
def Reduce {In Acc Out : Type} [Inhabited In] (p : RPolicy In Acc Out)
    (shape axes : List Nat) (data : List In) : List Out :=
  (List.range (dropShape shape axes).prod).map (fun j =>
    foldGroup p (withPositions (groupValues shape axes data j)))

/-- Accumulator of NativeArgMaxOp: the running maximum and its flat
index; argmax = -1 means no element has been seen yet. -/
structure MaxAndArgMax (T : Type) where
  max : T
  argmax : Int

/-- Accumulator of NativeArgMinOp: the running minimum and its flat
index; argmin = -1 means no element has been seen yet. -/
structure MinAndArgMin (T : Type) where
  min : T
  argmin : Int

/-- Policy of NativeArgMaxOp::Call, parameterized by the element
comparison lt and the value-initialized element t0 (T{}): replace the
accumulator when no element has been seen (argmax < 0) or the stored
maximum is strictly less than the next value. -/
def argMaxPolicy {T : Type} (lt : T → T → Bool) (t0 : T) : RPolicy T (MaxAndArgMax T) Int where
  identity := ⟨t0, -1⟩
  mapIn := fun v i => ⟨v, i⟩
  reduce := fun next accum =>
    if decide (accum.argmax < 0) || lt accum.max next.max then next else accum
  mapOut := fun a => a.argmax

/-- Policy of NativeArgMinOp::Impl, parameterized by the element
comparison gt and the value-initialized element t0 (T{}): replace the
accumulator when no element has been seen (argmin < 0) or the stored
minimum is strictly greater than the next value. -/
def argMinPolicy {T : Type} (gt : T → T → Bool) (t0 : T) : RPolicy T (MinAndArgMin T) Int where
  identity := ⟨t0, -1⟩
  mapIn := fun v i => ⟨v, i⟩
  reduce := fun next accum =>
    if decide (accum.argmin < 0) || gt accum.min next.min then next else accum
  mapOut := fun a => a.argmin

/-- Policy of NativeSumOp::Call: identity 0, cast each input element
into the accumulator type, accum += next, cast the final accumulator to
the output type. -/
def sumPolicy {In Acc Out : Type} [Zero Acc] [Add Acc]
    (castIn : In → Acc) (castOut : Acc → Out) : RPolicy In Acc Out where
  identity := 0
  mapIn := fun v _ => castIn v
  reduce := fun next accum => accum + next
  mapOut := castOut

/-- Policy of NativeAMaxOp::Call: identity LowestOrInf, replace the
accumulator when the next value is NaN or strictly greater. -/
def amaxPolicy {T : Type} (lt : T → T → Bool) (isNan : T → Bool) (lowest : T) :
    RPolicy T T T where
  identity := lowest
  mapIn := fun v _ => v
  reduce := fun next accum => if isNan next || lt accum next then next else accum
  mapOut := fun a => a

/-- ArgMax policy at integer elements. -/
def argMaxPolicyInt : RPolicy Int (MaxAndArgMax Int) Int :=
  argMaxPolicy (fun a b => decide (a < b)) 0

/-- ArgMin policy at integer elements. -/
def argMinPolicyInt : RPolicy Int (MinAndArgMin Int) Int :=
  argMinPolicy (fun a b => decide (a > b)) 0

/-- ArgMax policy at floating elements (T{} is +0.0). -/
def argMaxPolicyF : RPolicy FVal (MaxAndArgMax FVal) Int :=
  argMaxPolicy flt (FVal.fin 0)

/-- Sum policy when the accumulator type equals the element type. -/
def sumPolicyInt : RPolicy Int Int Int := sumPolicy id id

/-- AMax policy at floating elements. -/
def amaxPolicyF : RPolicy FVal FVal FVal := amaxPolicy flt IsNan LowestOrInf

/-- The ArgMax reduction of integer data. -/
def argMaxReduceInt (shape axes : List Nat) (data : List Int) : List Int :=
  Reduce argMaxPolicyInt shape axes data

/-- The ArgMin reduction of integer data. -/
def argMinReduceInt (shape axes : List Nat) (data : List Int) : List Int :=
  Reduce argMinPolicyInt shape axes data

/-- The Sum reduction of integer data. -/
def sumReduceInt (shape axes : List Nat) (data : List Int) : List Int :=
  Reduce sumPolicyInt shape axes data

/-- The AMax reduction of floating data. -/
def amaxReduceF (shape axes : List Nat) (data : List FVal) : List FVal :=
  Reduce amaxPolicyF shape axes data

/-- The element dtypes of the backend. -/
inductive DType : Type
  | bool8 | int8 | int16 | int32 | int64 | uint8 | float16 | float32 | float64
deriving DecidableEq

/-- Accumulator dtype of NativeSumOp::Call:
std::conditional_t<std::is_same<Out, Float16>, float, Out>. -/
def sumAccumDType : DType → DType
  | DType.float16 => DType.float32
  | d => d

/-- The size assertion shared by the ArgMax and ArgMin adapters: every
reduced axis has size greater than zero. -/
def argSizeOk (shape axes : List Nat) : Bool :=
  axes.all (fun i => decide (0 < shape.getD i 0))

/-- Adapter NativeArgMaxOp::Call: asserts every reduced axis nonempty
and the drop-mode shape validity, then runs the engine; none models an
assertion failure (CHAINERX_ASSERT).  The device-compatibility check is
outside the modelled core. -/
def argMaxCall (shape axes : List Nat) (data : List Int) (outShape : List Nat) :
    Option (List Int) :=
  if argSizeOk shape axes && IsValidReductionShape shape axes outShape false then
    some (argMaxReduceInt shape axes data)
  else none

/-- Adapter NativeArgMinOp::Impl: asserts every reduced axis nonempty
and the drop-mode shape validity, then runs the engine; none models an
assertion failure. -/
def argMinCall (shape axes : List Nat) (data : List Int) (outShape : List Nat) :
    Option (List Int) :=
  if argSizeOk shape axes && IsValidReductionShape shape axes outShape false then
    some (argMinReduceInt shape axes data)
  else none

/-- Adapter NativeSumOp::Call: asserts the keep-dims-aware shape
validity, then runs the engine; none models an assertion failure. -/
def sumCall (shape axes : List Nat) (data : List Int) (outShape : List Nat) :
    Option (List Int) :=
  if IsValidReductionShape shape axes outShape true then
    some (sumReduceInt shape axes data)
  else none

/-- Adapter NativeAMaxOp::Call: asserts the keep-dims-aware shape
validity, then runs the engine; none models an assertion failure. -/
def amaxCall (shape axes : List Nat) (data : List FVal) (outShape : List Nat) :
    Option (List FVal) :=
  if IsValidReductionShape shape axes outShape true then
    some (amaxReduceF shape axes data)
  else none

lemma posPairs_cons {In : Type} (k : Nat) (v : In) (t : List In) :
    posPairs k (v :: t) = (v, (k : Int)) :: posPairs (k + 1) t := rfl

lemma posPairs_map_fst {In : Type} (k : Nat) (l : List In) :
    (posPairs k l).map Prod.fst = l := by
  simp only [posPairs, List.map_map]
  exact List.enumFrom_map_snd k l

/-- Reading one element of the engine's output: the fold of the
corresponding group. -/
lemma reduce_getD {In Acc Out : Type} [Inhabited In] (p : RPolicy In Acc Out)
    (shape axes : List Nat) (data : List In) (j : Nat) (d : Out)
    (hj : j < (dropShape shape axes).prod) :
    (Reduce p shape axes data).getD j d =
      foldGroup p (withPositions (groupValues shape axes data j)) := by
  have h1 : (List.range ((dropShape shape axes).prod))[j]? = some j :=
    List.getElem?_range hj
  simp [Reduce, List.getD_eq_getElem?_getD, h1]

/-- C7: for the input [[1,3,2],[4,0,6]] of shape 2 by 3 reduced over
axis 1, ArgMax yields [1, 2], Sum yields [6, 10], and AMax yields
[3, 6]. -/
theorem C7_concrete_two_by_three :
    argMaxReduceInt [2, 3] [1] [1, 3, 2, 4, 0, 6] = [1, 2] ∧
    sumReduceInt [2, 3] [1] [1, 3, 2, 4, 0, 6] = [6, 10] ∧
    amaxReduceF [2, 3] [1]
        [FVal.fin 1, FVal.fin 3, FVal.fin 2, FVal.fin 4, FVal.fin 0, FVal.fin 6] =
      [FVal.fin 3, FVal.fin 6] :=
  ⟨by decide, by decide, by rfl⟩

/-- C4: a size-0 reduced axis makes the ArgMax and ArgMin adapters fail
their precondition assertion (no computed result); when every reduced
axis has positive size the size assertion passes. -/
theorem C4_empty_axis_precondition (shape axes : List Nat) (data : List Int)
    (outShape : List Nat) :
    ((∃ a ∈ axes, shape.getD a 0 = 0) →
      argMaxCall shape axes data outShape = none ∧
      argMinCall shape axes data outShape = none) ∧
    ((∀ a ∈ axes, 0 < shape.getD a 0) → argSizeOk shape axes = true) := by
  constructor
  · rintro ⟨a, ha, hz⟩
    have hsz : argSizeOk shape axes = false := by
      rw [Bool.eq_false_iff]
      intro hall
      rw [argSizeOk, List.all_eq_true] at hall
      have := hall a ha
      rw [decide_eq_true_eq] at this
      omega
    constructor <;> simp [argMaxCall, argMinCall, hsz]
  · intro h
    rw [argSizeOk, List.all_eq_true]
    intro a ha
    simpa using h a ha

/-- C4 witness: shape (0,3) reduced over axis 0 fails the ArgMax and
ArgMin precondition; shape (2,3) over axis 1 passes the size
assertion. -/
theorem C4_empty_axis_precondition_witness :
    argMaxCall [0, 3] [0] [] [3] = none ∧ argMinCall [0, 3] [0] [] [3] = none ∧
    argSizeOk [2, 3] [1] = true :=
  ⟨((C4_empty_axis_precondition [0, 3] [0] [] [3]).1 ⟨0, by decide, by decide⟩).1,
   ((C4_empty_axis_precondition [0, 3] [0] [] [3]).1 ⟨0, by decide, by decide⟩).2,
   (C4_empty_axis_precondition [2, 3] [1] [] []).2 (by decide)⟩

/-- C6: the ArgMax/ArgMin adapters accept exactly the drop-mode output
shape (reduced axes removed), the Sum/AMax adapters accept exactly the
drop-mode or keep-dims output shape (reduced axes removed or set
to 1). -/
theorem C6_adapter_shape_validity (inS axes outS : List Nat) (data : List Int)
    (dataF : List FVal) :
    (argSizeOk inS axes = true →
      (argMaxCall inS axes data outS ≠ none ↔ outS = dropShape inS axes)) ∧
    (argSizeOk inS axes = true →
      (argMinCall inS axes data outS ≠ none ↔ outS = dropShape inS axes)) ∧
    (sumCall inS axes data outS ≠ none ↔
      (outS = dropShape inS axes ∨ outS = keepShape inS axes)) ∧
    (amaxCall inS axes dataF outS ≠ none ↔
      (outS = dropShape inS axes ∨ outS = keepShape inS axes)) := by
  refine ⟨?_, ?_, ?_, ?_⟩
  · intro h
    by_cases hd : outS = dropShape inS axes <;>
      simp [argMaxCall, IsValidReductionShape, h, hd]
  · intro h
    by_cases hd : outS = dropShape inS axes <;>
      simp [argMinCall, IsValidReductionShape, h, hd]
  · by_cases hd : outS = dropShape inS axes <;>
      by_cases hk : outS = keepShape inS axes <;>
      simp [sumCall, IsValidReductionShape, hd, hk]
  · by_cases hd : outS = dropShape inS axes <;>
      by_cases hk : outS = keepShape inS axes <;>
      simp [amaxCall, IsValidReductionShape, hd, hk]

/-- C6 witness: for shape (2,3) over axis 1, ArgMax accepts output
shape (2), Sum also accepts the keep-dims output shape (2,1). -/
theorem C6_adapter_shape_validity_witness :
    argMaxCall [2, 3] [1] [1, 2, 3, 4, 5, 6] [2] ≠ none ∧
    sumCall [2, 3] [1] [1, 2, 3, 4, 5, 6] [2, 1] ≠ none :=
  ⟨((C6_adapter_shape_validity [2, 3] [1] [2] [1, 2, 3, 4, 5, 6] []).1
      (by decide)).mpr (by decide),
   ((C6_adapter_shape_validity [2, 3] [1] [2, 1] [1, 2, 3, 4, 5, 6] []).2.2.1).mpr
      (Or.inr (by decide))⟩

/-- C5: the Sum accumulator dtype is float (float32) when the output is
Float16 and otherwise equals the output dtype; the policy starts at 0,
casts each element into the accumulator type, folds with accum + next,
and casts the final accumulator to the output type. -/
theorem C5_sum_accumulation {In Acc Out : Type} [Zero Acc] [Add Acc]
    (castIn : In → Acc) (castOut : Acc → Out) :
    sumAccumDType DType.float16 = DType.float32 ∧
    (∀ d : DType, d ≠ DType.float16 → sumAccumDType d = d) ∧
    (sumPolicy castIn castOut).identity = 0 ∧
    (∀ l : List (In × Int),
      foldGroup (sumPolicy castIn castOut) l =
        castOut ((l.map (fun q => castIn q.1)).foldl (· + ·) 0)) := by
  refine ⟨rfl, ?_, rfl, ?_⟩
  · intro d hd
    cases d <;> first | rfl | exact absurd rfl hd
  · intro l
    simp [foldGroup, sumPolicy, List.foldl_map]

/-- C5 witness: a non-Float16 dtype keeps its own accumulator dtype,
and summing the concrete group [2, 3] gives 5. -/
theorem C5_sum_accumulation_witness :
    sumAccumDType DType.int32 = DType.int32 ∧
    foldGroup (sumPolicy (id : Int → Int) id) [((2 : Int), (0 : Int)), (3, 1)] = 5 :=
  ⟨(C5_sum_accumulation (id : Int → Int) id).2.1 DType.int32 (by decide),
   by rw [(C5_sum_accumulation (id : Int → Int) id).2.2.2
        [((2 : Int), (0 : Int)), (3, 1)]]; decide⟩

lemma foldGroup_value_only {In Acc Out : Type} (p : RPolicy In Acc Out)
    (hblind : ∀ v i j, p.mapIn v i = p.mapIn v j) (l₁ l₂ : List (In × Int))
    (h : l₁.map Prod.fst = l₂.map Prod.fst) : foldGroup p l₁ = foldGroup p l₂ := by
  have key : ∀ (m₁ : List (In × Int)) (m₂ : List (In × Int)) (acc : Acc),
      m₁.map Prod.fst = m₂.map Prod.fst →
      m₁.foldl (fun acc q => p.reduce (p.mapIn q.1 q.2) acc) acc =
        m₂.foldl (fun acc q => p.reduce (p.mapIn q.1 q.2) acc) acc := by
    intro m₁
    induction m₁ with
    | nil =>
      intro m₂ acc h
      cases m₂ with
      | nil => rfl
      | cons b t => simp at h
    | cons a t ih =>
      intro m₂ acc h
      cases m₂ with
      | nil => simp at h
      | cons b t₂ =>
        simp only [List.map_cons, List.cons.injEq] at h
        obtain ⟨h1, h2⟩ := h
        rw [List.foldl_cons, List.foldl_cons,
          show p.mapIn a.1 a.2 = p.mapIn b.1 b.2 from h1 ▸ hblind a.1 a.2 b.2,
          ih t₂ _ h2]
  unfold foldGroup
  rw [key l₁ l₂ p.identity h]

/-- C10: the Sum and AMax folds depend only on the sequence of group
values, not on the index argument handed to MapIn. -/
theorem C10_sum_amax_index_blind (l₁ l₂ : List (Int × Int))
    (m₁ m₂ : List (FVal × Int)) :
    (l₁.map Prod.fst = l₂.map Prod.fst →
      foldGroup sumPolicyInt l₁ = foldGroup sumPolicyInt l₂) ∧
    (m₁.map Prod.fst = m₂.map Prod.fst →
      foldGroup amaxPolicyF m₁ = foldGroup amaxPolicyF m₂) :=
  ⟨fun h => foldGroup_value_only _ (fun _ _ _ => rfl) l₁ l₂ h,
   fun h => foldGroup_value_only _ (fun _ _ _ => rfl) m₁ m₂ h⟩

/-- C10 witness: the same values at different indices fold to the same
Sum and AMax results. -/
theorem C10_sum_amax_index_blind_witness :
    foldGroup sumPolicyInt [((1 : Int), (5 : Int)), (2, 9)] =
      foldGroup sumPolicyInt [((1 : Int), (0 : Int)), (2, 1)] ∧
    foldGroup amaxPolicyF [(FVal.fin 1, (7 : Int))] =
      foldGroup amaxPolicyF [(FVal.fin 1, (0 : Int))] :=
  ⟨(C10_sum_amax_index_blind [((1 : Int), (5 : Int)), (2, 9)]
      [((1 : Int), (0 : Int)), (2, 1)] [] []).1 (by decide),
   (C10_sum_amax_index_blind [] [] [(FVal.fin 1, (7 : Int))]
      [(FVal.fin 1, (0 : Int))]).2 (by rfl)⟩

/-- One ArgMax fold step at integer elements, as the engine applies
the policy. -/
def aStepInt (acc : MaxAndArgMax Int) (q : Int × Int) : MaxAndArgMax Int :=
  if decide (acc.argmax < 0) || decide (acc.max < q.1) then ⟨q.1, q.2⟩ else acc

/-- The ArgMax accumulator after folding the elements of t placed at
positions k, k+1, ... onto acc. -/
def aFold (k : Nat) (t : List Int) (acc : MaxAndArgMax Int) : MaxAndArgMax Int :=
  (posPairs k t).foldl aStepInt acc

lemma aFold_cons (k : Nat) (v : Int) (t : List Int) (acc : MaxAndArgMax Int) :
    aFold k (v :: t) acc = aFold (k + 1) t (aStepInt acc (v, (k : Int))) := rfl

lemma foldGroup_argMaxInt (l : List Int) :
    foldGroup argMaxPolicyInt (withPositions l) = (aFold 0 l ⟨0, -1⟩).argmax := rfl

/-- The invariant of the ArgMax fold: starting from an already-seen
accumulator whose index precedes every remaining position, the result
is the accumulator or a later element, it bounds every value folded in,
an unchanged maximum means an unchanged accumulator, and any value
equal to the final maximum sits at or after the final index. -/
lemma argMaxFoldAux (t : List Int) : ∀ (k : Nat) (acc : MaxAndArgMax Int),
    0 ≤ acc.argmax → acc.argmax < (k : Int) →
    (aFold k t acc = acc ∨
      ∃ m : Nat, m < t.length ∧ (aFold k t acc).max = t.getD m 0 ∧
        (aFold k t acc).argmax = (k : Int) + m) ∧
    acc.max ≤ (aFold k t acc).max ∧
    (∀ m : Nat, m < t.length → t.getD m 0 ≤ (aFold k t acc).max) ∧
    (acc.max = (aFold k t acc).max → aFold k t acc = acc) ∧
    (∀ m : Nat, m < t.length → t.getD m 0 = (aFold k t acc).max →
      (aFold k t acc).argmax ≤ (k : Int) + m) := by
  induction t with
  | nil =>
    intro k acc h0 hk
    refine ⟨Or.inl rfl, le_refl _, ?_, fun _ => rfl, ?_⟩ <;> intro m hm <;> simp at hm
  | cons v t ih =>
    intro k acc h0 hk
    rw [aFold_cons]
    by_cases hlt : acc.max < v
    · have hstep : aStepInt acc (v, (k : Int)) = ⟨v, (k : Int)⟩ := by
        simp [aStepInt, hlt]
      rw [hstep]
      have h0' : (0 : Int) ≤ (MaxAndArgMax.mk v (k : Int)).argmax := by
        simp
      have hk' : (MaxAndArgMax.mk v (k : Int)).argmax < ((k + 1 : Nat) : Int) := by
        push_cast
        simp
      obtain ⟨hmem, hub_acc, hub, hfix, hfirst⟩ := ih (k + 1) ⟨v, (k : Int)⟩ h0' hk'
      refine ⟨?_, ?_, ?_, ?_, ?_⟩
      · rcases hmem with h | ⟨m, hm, h1, h2⟩
        · exact Or.inr ⟨0, by simp, by simp [h], by simp [h]⟩
        · refine Or.inr ⟨m + 1, by simpa using Nat.succ_lt_succ hm, by simpa using h1, ?_⟩
          rw [h2]; push_cast; ring
      · exact le_trans (le_of_lt hlt) hub_acc
      · intro m hm
        cases m with
        | zero => simpa using hub_acc
        | succ m => simpa using hub m (by simpa using Nat.lt_of_succ_lt_succ hm)
      · intro heq
        exfalso
        have := lt_of_lt_of_le hlt hub_acc
        omega
      · intro m hm hv
        cases m with
        | zero =>
          have : (MaxAndArgMax.mk v (k : Int)).max = (aFold (k + 1) t ⟨v, (k : Int)⟩).max := by
            simpa using hv
          rw [hfix this]
          simp
        | succ m =>
          have h := hfirst m (by simpa using Nat.lt_of_succ_lt_succ hm) (by simpa using hv)
          push_cast at h ⊢
          omega
    · have hc1 : ¬ acc.argmax < 0 := by omega
      have hstep : aStepInt acc (v, (k : Int)) = acc := by
        simp [aStepInt, hc1, hlt]
      rw [hstep]
      have hk' : acc.argmax < ((k + 1 : Nat) : Int) := by push_cast; omega
      obtain ⟨hmem, hub_acc, hub, hfix, hfirst⟩ := ih (k + 1) acc h0 hk'
      refine ⟨?_, hub_acc, ?_, hfix, ?_⟩
      · rcases hmem with h | ⟨m, hm, h1, h2⟩
        · exact Or.inl h
        · refine Or.inr ⟨m + 1, by simpa using Nat.succ_lt_succ hm, by simpa using h1, ?_⟩
          rw [h2]; push_cast; ring
      · intro m hm
        cases m with
        | zero => simpa using le_trans (not_lt.mp hlt) hub_acc
        | succ m => simpa using hub m (by simpa using Nat.lt_of_succ_lt_succ hm)
      · intro m hm hv
        cases m with
        | zero =>
          have hvr : v = (aFold (k + 1) t acc).max := by simpa using hv
          have hle : acc.max = (aFold (k + 1) t acc).max :=
            le_antisymm hub_acc (hvr ▸ not_lt.mp hlt)
          rw [hfix hle]
          push_cast
          omega
        | succ m =>
          have h := hfirst m (by simpa using Nat.lt_of_succ_lt_succ hm) (by simpa using hv)
          push_cast at h ⊢
          omega

/-- C1: for every ArgMax reduction over a nonempty group, the returned
index is the position of the maximum within the group (ascending
flat-index order), and when the maximum occurs more than once it is the
smallest such position. -/
theorem C1_argmax_first_occurrence (shape axes : List Nat) (data : List Int) (j : Nat)
    (hj : j < (dropShape shape axes).prod)
    (hne : groupValues shape axes data j ≠ []) :
    ∃ k : Nat, k < (groupValues shape axes data j).length ∧
      (argMaxReduceInt shape axes data).getD j 0 = (k : Int) ∧
      (∀ m : Nat, m < (groupValues shape axes data j).length →
        (groupValues shape axes data j).getD m 0 ≤
          (groupValues shape axes data j).getD k 0) ∧
      (∀ m : Nat, m < (groupValues shape axes data j).length →
        (groupValues shape axes data j).getD m 0 =
          (groupValues shape axes data j).getD k 0 → k ≤ m) := by
  obtain ⟨v, t, hvt⟩ : ∃ v t, groupValues shape axes data j = v :: t := by
    cases hgv : groupValues shape axes data j with
    | nil => exact absurd hgv hne
    | cons v t => exact ⟨v, t, rfl⟩
  rw [argMaxReduceInt, reduce_getD argMaxPolicyInt shape axes data j 0 hj, hvt,
    foldGroup_argMaxInt]
  have hstep : aStepInt ⟨0, -1⟩ (v, ((0 : Nat) : Int)) = ⟨v, 0⟩ := by
    simp [aStepInt]
  rw [aFold_cons, hstep]
  obtain ⟨hmem, hub_acc, hub, hfix, hfirst⟩ :=
    argMaxFoldAux t 1 ⟨v, 0⟩ (by simp) (by simp)
  rcases hmem with h | ⟨m₀, hm₀, h1, h2⟩
  · refine ⟨0, by simp, by simp [h], ?_, ?_⟩
    · intro m hm
      cases m with
      | zero => exact le_refl _
      | succ m =>
        have := hub m (by simpa using Nat.lt_of_succ_lt_succ hm)
        rw [h] at this
        simpa using this
    · intro m _ _
      exact Nat.zero_le m
  · refine ⟨m₀ + 1, by simpa using Nat.succ_lt_succ hm₀, ?_, ?_, ?_⟩
    · rw [h2]; push_cast; ring
    · intro m hm
      have hkv : (v :: t).getD (m₀ + 1) 0 = (aFold 1 t ⟨v, 0⟩).max := by
        simpa using h1.symm
      rw [hkv]
      cases m with
      | zero => simpa using hub_acc
      | succ m => simpa using hub m (by simpa using Nat.lt_of_succ_lt_succ hm)
    · intro m hm hv
      have hkv : (v :: t).getD (m₀ + 1) 0 = (aFold 1 t ⟨v, 0⟩).max := by
        simpa using h1.symm
      rw [hkv] at hv
      cases m with
      | zero =>
        exfalso
        have hvmax : (MaxAndArgMax.mk v (0 : Int)).max = (aFold 1 t ⟨v, 0⟩).max := by
          simpa using hv
        have := hfix hvmax
        rw [this] at h2
        simp at h2
        omega
      | succ m =>
        have h := hfirst m (by simpa using Nat.lt_of_succ_lt_succ hm) (by simpa using hv)
        rw [h2] at h
        push_cast at h
        omega

/-- C1 witness: ArgMax over the whole of [5,5,3,5] — a duplicated
maximum — returns position 0, the first occurrence. -/
theorem C1_argmax_first_occurrence_witness :
    (0 < (dropShape [4] [0]).prod ∧ groupValues [4] [0] ([5, 5, 3, 5] : List Int) 0 ≠ []) ∧
    (∃ k : Nat, k < (groupValues [4] [0] ([5, 5, 3, 5] : List Int) 0).length ∧
      (argMaxReduceInt [4] [0] [5, 5, 3, 5]).getD 0 0 = (k : Int) ∧
      (∀ m : Nat, m < (groupValues [4] [0] ([5, 5, 3, 5] : List Int) 0).length →
        (groupValues [4] [0] ([5, 5, 3, 5] : List Int) 0).getD m 0 ≤
          (groupValues [4] [0] ([5, 5, 3, 5] : List Int) 0).getD k 0) ∧
      (∀ m : Nat, m < (groupValues [4] [0] ([5, 5, 3, 5] : List Int) 0).length →
        (groupValues [4] [0] ([5, 5, 3, 5] : List Int) 0).getD m 0 =
          (groupValues [4] [0] ([5, 5, 3, 5] : List Int) 0).getD k 0 → k ≤ m)) ∧
    argMaxReduceInt [4] [0] [5, 5, 3, 5] = [0] :=
  ⟨⟨by decide, by decide⟩,
   C1_argmax_first_occurrence [4] [0] [5, 5, 3, 5] 0 (by decide) (by decide),
   by decide⟩

/-- One ArgMin fold step at integer elements, as the engine applies
the policy. -/
def iStepInt (acc : MinAndArgMin Int) (q : Int × Int) : MinAndArgMin Int :=
  if decide (acc.argmin < 0) || decide (acc.min > q.1) then ⟨q.1, q.2⟩ else acc

/-- The ArgMin accumulator after folding the elements of t placed at
positions k, k+1, ... onto acc. -/
def iFold (k : Nat) (t : List Int) (acc : MinAndArgMin Int) : MinAndArgMin Int :=
  (posPairs k t).foldl iStepInt acc

lemma iFold_cons (k : Nat) (v : Int) (t : List Int) (acc : MinAndArgMin Int) :
    iFold k (v :: t) acc = iFold (k + 1) t (iStepInt acc (v, (k : Int))) := rfl

lemma foldGroup_argMinInt (l : List Int) :
    foldGroup argMinPolicyInt (withPositions l) = (iFold 0 l ⟨0, -1⟩).argmin := rfl

/-- The invariant of the ArgMin fold, dual to the ArgMax one: the
result is the accumulator or a later element, it lower-bounds every
value folded in, an unchanged minimum means an unchanged accumulator,
and any value equal to the final minimum sits at or after the final
index. -/
lemma argMinFoldAux (t : List Int) : ∀ (k : Nat) (acc : MinAndArgMin Int),
    0 ≤ acc.argmin → acc.argmin < (k : Int) →
    (iFold k t acc = acc ∨
      ∃ m : Nat, m < t.length ∧ (iFold k t acc).min = t.getD m 0 ∧
        (iFold k t acc).argmin = (k : Int) + m) ∧
    (iFold k t acc).min ≤ acc.min ∧
    (∀ m : Nat, m < t.length → (iFold k t acc).min ≤ t.getD m 0) ∧
    (acc.min = (iFold k t acc).min → iFold k t acc = acc) ∧
    (∀ m : Nat, m < t.length → t.getD m 0 = (iFold k t acc).min →
      (iFold k t acc).argmin ≤ (k : Int) + m) := by
  induction t with
  | nil =>
    intro k acc h0 hk
    refine ⟨Or.inl rfl, le_refl _, ?_, fun _ => rfl, ?_⟩ <;> intro m hm <;> simp at hm
  | cons v t ih =>
    intro k acc h0 hk
    rw [iFold_cons]
    by_cases hgt : acc.min > v
    · have hstep : iStepInt acc (v, (k : Int)) = ⟨v, (k : Int)⟩ := by
        simp [iStepInt, hgt]
      rw [hstep]
      have h0' : (0 : Int) ≤ (MinAndArgMin.mk v (k : Int)).argmin := by
        simp
      have hk' : (MinAndArgMin.mk v (k : Int)).argmin < ((k + 1 : Nat) : Int) := by
        push_cast
        simp
      obtain ⟨hmem, hlb_acc, hlb, hfix, hfirst⟩ := ih (k + 1) ⟨v, (k : Int)⟩ h0' hk'
      refine ⟨?_, ?_, ?_, ?_, ?_⟩
      · rcases hmem with h | ⟨m, hm, h1, h2⟩
        · exact Or.inr ⟨0, by simp, by simp [h], by simp [h]⟩
        · refine Or.inr ⟨m + 1, by simpa using Nat.succ_lt_succ hm, by simpa using h1, ?_⟩
          rw [h2]; push_cast; ring
      · exact le_trans hlb_acc (le_of_lt hgt)
      · intro m hm
        cases m with
        | zero => simpa using hlb_acc
        | succ m => simpa using hlb m (by simpa using Nat.lt_of_succ_lt_succ hm)
      · intro heq
        exfalso
        have := lt_of_le_of_lt hlb_acc hgt
        omega
      · intro m hm hv
        cases m with
        | zero =>
          have : (MinAndArgMin.mk v (k : Int)).min = (iFold (k + 1) t ⟨v, (k : Int)⟩).min := by
            simpa using hv
          rw [hfix this]
          simp
        | succ m =>
          have h := hfirst m (by simpa using Nat.lt_of_succ_lt_succ hm) (by simpa using hv)
          push_cast at h ⊢
          omega
    · have hc1 : ¬ acc.argmin < 0 := by omega
      have hstep : iStepInt acc (v, (k : Int)) = acc := by
        simp [iStepInt, hc1, hgt]
      rw [hstep]
      have hk' : acc.argmin < ((k + 1 : Nat) : Int) := by push_cast; omega
      obtain ⟨hmem, hlb_acc, hlb, hfix, hfirst⟩ := ih (k + 1) acc h0 hk'
      refine ⟨?_, hlb_acc, ?_, hfix, ?_⟩
      · rcases hmem with h | ⟨m, hm, h1, h2⟩
        · exact Or.inl h
        · refine Or.inr ⟨m + 1, by simpa using Nat.succ_lt_succ hm, by simpa using h1, ?_⟩
          rw [h2]; push_cast; ring
      · intro m hm
        cases m with
        | zero => simpa using le_trans hlb_acc (not_lt.mp hgt)
        | succ m => simpa using hlb m (by simpa using Nat.lt_of_succ_lt_succ hm)
      · intro m hm hv
        cases m with
        | zero =>
          have hvr : v = (iFold (k + 1) t acc).min := by simpa using hv
          have hle : acc.min = (iFold (k + 1) t acc).min :=
            le_antisymm (hvr ▸ not_lt.mp hgt) hlb_acc
          rw [hfix hle]
          push_cast
          omega
        | succ m =>
          have h := hfirst m (by simpa using Nat.lt_of_succ_lt_succ hm) (by simpa using hv)
          push_cast at h ⊢
          omega

/-- C3: the ArgMin accumulator starts at (T{}, -1), is replaced exactly
when the stored index is negative or the stored minimum is strictly
greater than the next value, and consequently for every nonempty group
the first occurrence of the minimum wins. -/
theorem C3_argmin_first_occurrence (shape axes : List Nat) (data : List Int) (j : Nat)
    (hj : j < (dropShape shape axes).prod)
    (hne : groupValues shape axes data j ≠ []) :
    argMinPolicyInt.identity = ⟨0, -1⟩ ∧
    (∀ next accum : MinAndArgMin Int,
      ((accum.argmin < 0 ∨ accum.min > next.min) →
        argMinPolicyInt.reduce next accum = next) ∧
      (¬(accum.argmin < 0 ∨ accum.min > next.min) →
        argMinPolicyInt.reduce next accum = accum)) ∧
    ∃ k : Nat, k < (groupValues shape axes data j).length ∧
      (argMinReduceInt shape axes data).getD j 0 = (k : Int) ∧
      (∀ m : Nat, m < (groupValues shape axes data j).length →
        (groupValues shape axes data j).getD k 0 ≤
          (groupValues shape axes data j).getD m 0) ∧
      (∀ m : Nat, m < (groupValues shape axes data j).length →
        (groupValues shape axes data j).getD m 0 =
          (groupValues shape axes data j).getD k 0 → k ≤ m) := by
  refine ⟨rfl, ?_, ?_⟩
  · intro next accum
    constructor
    · intro h
      rcases h with h | h <;>
        simp [argMinPolicyInt, argMinPolicy, h]
    · intro h
      push_neg at h
      obtain ⟨h1, h2⟩ := h
      simp [argMinPolicyInt, argMinPolicy, not_lt.mpr h1, not_lt.mpr h2]
  · obtain ⟨v, t, hvt⟩ : ∃ v t, groupValues shape axes data j = v :: t := by
      cases hgv : groupValues shape axes data j with
      | nil => exact absurd hgv hne
      | cons v t => exact ⟨v, t, rfl⟩
    rw [argMinReduceInt, reduce_getD argMinPolicyInt shape axes data j 0 hj, hvt,
      foldGroup_argMinInt]
    have hstep : iStepInt ⟨0, -1⟩ (v, ((0 : Nat) : Int)) = ⟨v, 0⟩ := by
      simp [iStepInt]
    rw [iFold_cons, hstep]
    obtain ⟨hmem, hlb_acc, hlb, hfix, hfirst⟩ :=
      argMinFoldAux t 1 ⟨v, 0⟩ (by simp) (by simp)
    rcases hmem with h | ⟨m₀, hm₀, h1, h2⟩
    · refine ⟨0, by simp, by simp [h], ?_, ?_⟩
      · intro m hm
        cases m with
        | zero => exact le_refl _
        | succ m =>
          have := hlb m (by simpa using Nat.lt_of_succ_lt_succ hm)
          rw [h] at this
          simpa using this
      · intro m _ _
        exact Nat.zero_le m
    · refine ⟨m₀ + 1, by simpa using Nat.succ_lt_succ hm₀, ?_, ?_, ?_⟩
      · rw [h2]; push_cast; ring
      · intro m hm
        have hkv : (v :: t).getD (m₀ + 1) 0 = (iFold 1 t ⟨v, 0⟩).min := by
          simpa using h1.symm
        rw [hkv]
        cases m with
        | zero => simpa using hlb_acc
        | succ m => simpa using hlb m (by simpa using Nat.lt_of_succ_lt_succ hm)
      · intro m hm hv
        have hkv : (v :: t).getD (m₀ + 1) 0 = (iFold 1 t ⟨v, 0⟩).min := by
          simpa using h1.symm
        rw [hkv] at hv
        cases m with
        | zero =>
          exfalso
          have hvmin : (MinAndArgMin.mk v (0 : Int)).min = (iFold 1 t ⟨v, 0⟩).min := by
            simpa using hv
          have := hfix hvmin
          rw [this] at h2
          simp at h2
          omega
        | succ m =>
          have h := hfirst m (by simpa using Nat.lt_of_succ_lt_succ hm) (by simpa using hv)
          rw [h2] at h
          push_cast at h
          omega

/-- C3 witness: ArgMin over the whole of [-1,-5,-2] returns 1, the
position of the unique minimum. -/
theorem C3_argmin_first_occurrence_witness :
    (0 < (dropShape [3] [0]).prod ∧
      groupValues [3] [0] ([-1, -5, -2] : List Int) 0 ≠ []) ∧
    (∃ k : Nat, k < (groupValues [3] [0] ([-1, -5, -2] : List Int) 0).length ∧
      (argMinReduceInt [3] [0] [-1, -5, -2]).getD 0 0 = (k : Int) ∧
      (∀ m : Nat, m < (groupValues [3] [0] ([-1, -5, -2] : List Int) 0).length →
        (groupValues [3] [0] ([-1, -5, -2] : List Int) 0).getD k 0 ≤
          (groupValues [3] [0] ([-1, -5, -2] : List Int) 0).getD m 0) ∧
      (∀ m : Nat, m < (groupValues [3] [0] ([-1, -5, -2] : List Int) 0).length →
        (groupValues [3] [0] ([-1, -5, -2] : List Int) 0).getD m 0 =
          (groupValues [3] [0] ([-1, -5, -2] : List Int) 0).getD k 0 → k ≤ m)) ∧
    argMinReduceInt [3] [0] [-1, -5, -2] = [1] :=
  ⟨⟨by decide, by decide⟩,
   (C3_argmin_first_occurrence [3] [0] [-1, -5, -2] 0 (by decide) (by decide)).2.2,
   by decide⟩

lemma isNan_eq_true_iff (v : FVal) : IsNan v = true ↔ v = FVal.nan := by
  cases v <;> simp [IsNan]

lemma flt_nan_left (v : FVal) : flt FVal.nan v = false := by
  cases v <;> rfl

lemma flt_nan_right (v : FVal) : flt v FVal.nan = false := by
  cases v <;> rfl

lemma flt_imp_fle {a b : FVal} (h : flt a b = true) : fle a b = true := by
  cases a <;> cases b <;> simp [flt, fle] at h ⊢ <;> exact le_of_lt h

lemma not_flt_fle {a b : FVal} (ha : IsNan a = false) (hb : IsNan b = false)
    (h : flt a b = false) : fle b a = true := by
  cases a <;> cases b <;> simp [IsNan, flt, fle] at * <;> exact h

lemma fle_refl {a : FVal} (h : IsNan a = false) : fle a a = true := by
  cases a <;> simp [IsNan, fle] at *

lemma fle_trans {a b c : FVal} (h1 : fle a b = true) (h2 : fle b c = true) :
    fle a c = true := by
  cases a <;> cases b <;> cases c <;> simp [fle] at * <;> exact le_trans h1 h2

lemma fle_ninf_right {a : FVal} (h : fle a FVal.ninf = true) : a = FVal.ninf := by
  cases a <;> simp [fle] at *

/-- One AMax fold step at floating elements, as the engine applies the
policy. -/
def mStepV (acc v : FVal) : FVal :=
  if IsNan v || flt acc v then v else acc

lemma foldl_posPairs_mStep : ∀ (l : List FVal) (k : Nat) (acc : FVal),
    (posPairs k l).foldl (fun acc q => mStepV acc q.1) acc = l.foldl mStepV acc := by
  intro l
  induction l with
  | nil => intro k acc; rfl
  | cons v t ih =>
    intro k acc
    rw [posPairs_cons]
    exact ih (k + 1) (mStepV acc v)

lemma foldGroup_amaxF (l : List FVal) :
    foldGroup amaxPolicyF (withPositions l) = l.foldl mStepV LowestOrInf :=
  foldl_posPairs_mStep l 0 LowestOrInf

lemma mStep_nan_acc {acc : FVal} (v : FVal) (h : IsNan acc = true) :
    IsNan (mStepV acc v) = true := by
  rw [isNan_eq_true_iff] at h
  subst h
  by_cases hv : IsNan v = true
  · simp [mStepV, hv]
  · have hv' : IsNan v = false := by simpa using hv
    unfold mStepV
    rw [hv', flt_nan_left]
    rfl

lemma amaxFold_nan_acc : ∀ (l : List FVal) (acc : FVal), IsNan acc = true →
    IsNan (l.foldl mStepV acc) = true := by
  intro l
  induction l with
  | nil => intro acc h; exact h
  | cons v t ih =>
    intro acc h
    rw [List.foldl_cons]
    exact ih _ (mStep_nan_acc v h)

lemma amaxFold_nan_mem : ∀ (l : List FVal) (acc : FVal), (∃ v ∈ l, IsNan v = true) →
    IsNan (l.foldl mStepV acc) = true := by
  intro l
  induction l with
  | nil =>
    rintro acc ⟨v, hv, _⟩
    simp at hv
  | cons w t ih =>
    rintro acc ⟨v, hv, hn⟩
    rw [List.foldl_cons]
    rcases List.mem_cons.mp hv with rfl | hvt
    · apply amaxFold_nan_acc
      simp [mStepV, hn]
    · exact ih _ ⟨v, hvt, hn⟩

lemma amaxFold_no_nan : ∀ (l : List FVal) (acc : FVal), (∀ v ∈ l, IsNan v = false) →
    IsNan acc = false →
    ((l.foldl mStepV acc = acc ∨ l.foldl mStepV acc ∈ l) ∧
      fle acc (l.foldl mStepV acc) = true ∧
      ∀ v ∈ l, fle v (l.foldl mStepV acc) = true) := by
  intro l
  induction l with
  | nil =>
    intro acc _ hacc
    exact ⟨Or.inl rfl, fle_refl hacc, by simp⟩
  | cons w t ih =>
    intro acc h hacc
    have hw : IsNan w = false := h w (List.mem_cons_self w t)
    rw [List.foldl_cons]
    by_cases hc : flt acc w = true
    · have hstep : mStepV acc w = w := by simp [mStepV, hc]
      rw [hstep]
      obtain ⟨hmem, hfle, hall⟩ := ih w (fun v hv => h v (List.mem_cons_of_mem _ hv)) hw
      refine ⟨?_, fle_trans (flt_imp_fle hc) hfle, ?_⟩
      · rcases hmem with h' | h'
        · exact Or.inr (by rw [h']; exact List.mem_cons_self w t)
        · exact Or.inr (List.mem_cons_of_mem _ h')
      · intro v hv
        rcases List.mem_cons.mp hv with rfl | hvt
        · exact hfle
        · exact hall v hvt
    · have hstep : mStepV acc w = acc := by simp [mStepV, hw, hc]
      rw [hstep]
      obtain ⟨hmem, hfle, hall⟩ := ih acc (fun v hv => h v (List.mem_cons_of_mem _ hv)) hacc
      refine ⟨?_, hfle, ?_⟩
      · rcases hmem with h' | h'
        · exact Or.inl h'
        · exact Or.inr (List.mem_cons_of_mem _ h')
      · intro v hv
        rcases List.mem_cons.mp hv with rfl | hvt
        · exact fle_trans (not_flt_fle hacc hw (by simpa using hc)) hfle
        · exact hall v hvt

/-- C2: an AMax group containing a NaN yields a NaN output element; a
NaN-free nonempty group yields its true maximum (an element of the
group that every group element is below or equal to). -/
theorem C2_amax_nan_and_max (shape axes : List Nat) (dataF : List FVal) (j : Nat)
    (hj : j < (dropShape shape axes).prod) :
    ((∃ v ∈ groupValues shape axes dataF j, IsNan v = true) →
      IsNan ((amaxReduceF shape axes dataF).getD j default) = true) ∧
    ((∀ v ∈ groupValues shape axes dataF j, IsNan v = false) →
      groupValues shape axes dataF j ≠ [] →
      ((amaxReduceF shape axes dataF).getD j default ∈ groupValues shape axes dataF j ∧
        ∀ v ∈ groupValues shape axes dataF j,
          fle v ((amaxReduceF shape axes dataF).getD j default) = true)) := by
  rw [amaxReduceF, reduce_getD amaxPolicyF shape axes dataF j default hj, foldGroup_amaxF]
  constructor
  · intro h
    exact amaxFold_nan_mem (groupValues shape axes dataF j) LowestOrInf h
  · intro h hne
    obtain ⟨hmem, _, hall⟩ :=
      amaxFold_no_nan (groupValues shape axes dataF j) LowestOrInf h rfl
    refine ⟨?_, hall⟩
    rcases hmem with h' | h'
    · obtain ⟨v, t, hvt⟩ : ∃ v t, groupValues shape axes dataF j = v :: t := by
        cases hq : groupValues shape axes dataF j with
        | nil => exact absurd hq hne
        | cons v t => exact ⟨v, t, rfl⟩
      have hv : v ∈ groupValues shape axes dataF j := hvt ▸ List.mem_cons_self v t
      have hvle := hall v hv
      rw [h'] at hvle ⊢
      have hvn : v = FVal.ninf := fle_ninf_right hvle
      rw [LowestOrInf, ← hvn]
      exact hv
    · exact h'

/-- C2 witness: AMax over [[1,NaN,2]] along axis 1 yields [NaN]. -/
theorem C2_amax_nan_and_max_witness :
    (0 < (dropShape [1, 3] [1]).prod ∧
      ∃ v ∈ groupValues [1, 3] [1] [FVal.fin 1, FVal.nan, FVal.fin 2] 0,
        IsNan v = true) ∧
    IsNan ((amaxReduceF [1, 3] [1] [FVal.fin 1, FVal.nan, FVal.fin 2]).getD 0 default) =
      true ∧
    amaxReduceF [1, 3] [1] [FVal.fin 1, FVal.nan, FVal.fin 2] = [FVal.nan] :=
  ⟨⟨by decide, ⟨FVal.nan, by decide, rfl⟩⟩,
   (C2_amax_nan_and_max [1, 3] [1] [FVal.fin 1, FVal.nan, FVal.fin 2] 0 (by decide)).1
     ⟨FVal.nan, by decide, rfl⟩,
   by rfl⟩

/-- One ArgMax fold step at floating elements, as the engine applies
the policy. -/
def fStepF (acc : MaxAndArgMax FVal) (q : FVal × Int) : MaxAndArgMax FVal :=
  if decide (acc.argmax < 0) || flt acc.max q.1 then ⟨q.1, q.2⟩ else acc

lemma foldGroup_argMaxF (l : List (FVal × Int)) :
    foldGroup argMaxPolicyF l = (l.foldl fStepF ⟨FVal.fin 0, -1⟩).argmax := rfl

lemma fStepF_keep_nan_next {acc : MaxAndArgMax FVal} (q : FVal × Int)
    (h0 : 0 ≤ acc.argmax) (hn : IsNan q.1 = true) : fStepF acc q = acc := by
  rw [isNan_eq_true_iff] at hn
  have hf : flt acc.max q.1 = false := by rw [hn]; exact flt_nan_right _
  simp [fStepF, not_lt.mpr h0, hf]

lemma fStepF_keep_nan_acc {acc : MaxAndArgMax FVal} (q : FVal × Int)
    (h0 : 0 ≤ acc.argmax) (hn : IsNan acc.max = true) : fStepF acc q = acc := by
  rw [isNan_eq_true_iff] at hn
  have hf : flt acc.max q.1 = false := by rw [hn]; exact flt_nan_left _
  simp [fStepF, not_lt.mpr h0, hf]

lemma fStepF_argmax_nonneg {acc : MaxAndArgMax FVal} (q : FVal × Int)
    (h0 : 0 ≤ acc.argmax) (hq : 0 ≤ q.2) : 0 ≤ (fStepF acc q).argmax := by
  unfold fStepF
  split
  · exact hq
  · exact h0

lemma fFold_nan_fixed : ∀ (t : List (FVal × Int)) (acc : MaxAndArgMax FVal),
    0 ≤ acc.argmax → IsNan acc.max = true → t.foldl fStepF acc = acc := by
  intro t
  induction t with
  | nil => intro acc _ _; rfl
  | cons q t ih =>
    intro acc h0 hn
    rw [List.foldl_cons, fStepF_keep_nan_acc q h0 hn]
    exact ih acc h0 hn

lemma fFold_skip_nans : ∀ (t : List (FVal × Int)) (acc : MaxAndArgMax FVal),
    0 ≤ acc.argmax → (∀ q ∈ t, 0 ≤ q.2) →
    t.foldl fStepF acc = (t.filter (fun q => !IsNan q.1)).foldl fStepF acc := by
  intro t
  induction t with
  | nil => intro acc _ _; rfl
  | cons q t ih =>
    intro acc h0 hq
    by_cases hn : IsNan q.1 = true
    · rw [List.foldl_cons, fStepF_keep_nan_next q h0 hn]
      have hfil : (q :: t).filter (fun r => !IsNan r.1) = t.filter (fun r => !IsNan r.1) := by
        simp [List.filter_cons, hn]
      rw [hfil]
      exact ih acc h0 (fun r hr => hq r (List.mem_cons_of_mem _ hr))
    · have hn' : IsNan q.1 = false := by simpa using hn
      have hfil : (q :: t).filter (fun r => !IsNan r.1) =
          q :: t.filter (fun r => !IsNan r.1) := by
        simp [List.filter_cons, hn']
      rw [hfil, List.foldl_cons, List.foldl_cons]
      exact ih (fStepF acc q)
        (fStepF_argmax_nonneg q h0 (hq q (List.mem_cons_self q t)))
        (fun r hr => hq r (List.mem_cons_of_mem _ hr))

/-- C9: in ArgMax over floating elements, a NaN next value never
replaces an already-seen accumulator, an already-seen NaN accumulator
is never replaced, a group starting with NaN returns the first index,
and a group starting with a non-NaN value folds as if its NaN elements
were removed. -/
theorem C9_argmax_nan_invariants :
    (∀ accum next : MaxAndArgMax FVal, 0 ≤ accum.argmax → IsNan next.max = true →
      argMaxPolicyF.reduce next accum = accum) ∧
    (∀ accum next : MaxAndArgMax FVal, 0 ≤ accum.argmax → IsNan accum.max = true →
      argMaxPolicyF.reduce next accum = accum) ∧
    (∀ (v : FVal) (i : Int) (t : List (FVal × Int)), IsNan v = true → 0 ≤ i →
      foldGroup argMaxPolicyF ((v, i) :: t) = i) ∧
    (∀ (v : FVal) (i : Int) (t : List (FVal × Int)), IsNan v = false → 0 ≤ i →
      (∀ q ∈ t, 0 ≤ q.2) →
      foldGroup argMaxPolicyF ((v, i) :: t) =
        foldGroup argMaxPolicyF ((v, i) :: t.filter (fun q => !IsNan q.1))) := by
  refine ⟨?_, ?_, ?_, ?_⟩
  · intro accum next h0 hn
    rw [isNan_eq_true_iff] at hn
    have hf : flt accum.max next.max = false := by rw [hn]; exact flt_nan_right _
    simp [argMaxPolicyF, argMaxPolicy, not_lt.mpr h0, hf]
  · intro accum next h0 hn
    rw [isNan_eq_true_iff] at hn
    have hf : flt accum.max next.max = false := by rw [hn]; exact flt_nan_left _
    simp [argMaxPolicyF, argMaxPolicy, not_lt.mpr h0, hf]
  · intro v i t hn h0
    rw [foldGroup_argMaxF, List.foldl_cons]
    have hstep : fStepF ⟨FVal.fin 0, -1⟩ (v, i) = ⟨v, i⟩ := by simp [fStepF]
    rw [hstep, fFold_nan_fixed t ⟨v, i⟩ h0 hn]
  · intro v i t _ h0 ht
    rw [foldGroup_argMaxF, foldGroup_argMaxF, List.foldl_cons, List.foldl_cons]
    have hstep : fStepF ⟨FVal.fin 0, -1⟩ (v, i) = ⟨v, i⟩ := by simp [fStepF]
    rw [hstep]
    exact congrArg MaxAndArgMax.argmax (fFold_skip_nans t ⟨v, i⟩ h0 ht)

/-- C9 witness: a group whose first element is NaN returns index 0 even
though a larger non-NaN value follows. -/
theorem C9_argmax_nan_invariants_witness :
    IsNan FVal.nan = true ∧ (0 : Int) ≤ 0 ∧
    foldGroup argMaxPolicyF [(FVal.nan, 0), (FVal.fin 1, 1)] = 0 :=
  ⟨rfl, le_refl 0,
   C9_argmax_nan_invariants.2.2.1 FVal.nan 0 [(FVal.fin 1, 1)] rfl (le_refl 0)⟩

lemma shiftAxes_nil : shiftAxes [] = [] := rfl

lemma shiftAxes_zero : shiftAxes [0] = [] := rfl

lemma shiftAxes_succ (a : Nat) : shiftAxes [a + 1] = [a] := by
  simp [shiftAxes]

lemma dropShape_nil_axes : ∀ ss : List Nat, dropShape ss [] = ss := by
  intro ss
  induction ss with
  | nil => rfl
  | cons s t ih => simp [dropShape, shiftAxes_nil, ih]

lemma groupKey_nil_axes : ∀ (ss : List Nat) (i : Nat), i < ss.prod →
    groupKey ss [] i = i := by
  intro ss
  induction ss with
  | nil =>
    intro i hi
    simp at hi
    simp [groupKey, hi]
  | cons s t ih =>
    intro i hi
    have hp : 0 < t.prod := by
      rcases Nat.eq_zero_or_pos t.prod with h0 | h0
      · rw [List.prod_cons, h0, Nat.mul_zero] at hi; omega
      · exact h0
    have hlt : i % t.prod < t.prod := Nat.mod_lt _ hp
    show (i / t.prod) * (dropShape t (shiftAxes [])).prod +
      groupKey t (shiftAxes []) (i % t.prod) = i
    rw [shiftAxes_nil, dropShape_nil_axes, ih _ hlt, Nat.mul_comm]
    exact Nat.div_add_mod i t.prod

lemma dropShape_single_prod : ∀ (ss : List Nat) (a : Nat), ss.getD a 0 = 1 →
    (dropShape ss [a]).prod = ss.prod := by
  intro ss
  induction ss with
  | nil =>
    intro a h
    simp at h
  | cons s t ih =>
    intro a h
    cases a with
    | zero =>
      have hs : s = 1 := by simpa using h
      show (dropShape t (shiftAxes [0])).prod = (s :: t).prod
      rw [shiftAxes_zero, dropShape_nil_axes, List.prod_cons, hs, Nat.one_mul]
    | succ a =>
      have ht : t.getD a 0 = 1 := by simpa using h
      show (s :: dropShape t (shiftAxes [a + 1])).prod = (s :: t).prod
      rw [shiftAxes_succ, List.prod_cons, List.prod_cons, ih a ht]

lemma groupKey_single : ∀ (ss : List Nat) (a i : Nat), ss.getD a 0 = 1 → i < ss.prod →
    groupKey ss [a] i = i := by
  intro ss
  induction ss with
  | nil =>
    intro a i h _
    simp at h
  | cons s t ih =>
    intro a i h hi
    cases a with
    | zero =>
      have hs : s = 1 := by simpa using h
      subst hs
      rw [List.prod_cons, Nat.one_mul] at hi
      show groupKey t (shiftAxes [0]) (i % t.prod) = i
      rw [shiftAxes_zero, Nat.mod_eq_of_lt hi, groupKey_nil_axes t i hi]
    | succ a =>
      have ht : t.getD a 0 = 1 := by simpa using h
      have hp : 0 < t.prod := by
        rcases Nat.eq_zero_or_pos t.prod with h0 | h0
        · rw [List.prod_cons, h0, Nat.mul_zero] at hi; omega
        · exact h0
      have hlt : i % t.prod < t.prod := Nat.mod_lt _ hp
      show (i / t.prod) * (dropShape t (shiftAxes [a + 1])).prod +
        groupKey t (shiftAxes [a + 1]) (i % t.prod) = i
      rw [shiftAxes_succ, dropShape_single_prod t a ht, ih a _ ht hlt, Nat.mul_comm]
      exact Nat.div_add_mod i t.prod

lemma filter_range_eq (n j : Nat) (hj : j < n) :
    (List.range n).filter (fun i => decide (i = j)) = [j] := by
  induction n with
  | zero => omega
  | succ n ih =>
    rw [List.range_succ, List.filter_append]
    by_cases h : j = n
    · subst h
      have h1 : (List.range j).filter (fun i => decide (i = j)) = [] := by
        rw [List.filter_eq_nil_iff]
        intro a ha
        rw [List.mem_range] at ha
        simp
        omega
      rw [h1]
      simp
    · have hj' : j < n := by omega
      rw [ih hj']
      have hne : ¬ n = j := by omega
      have h2 : (List.filter (fun i => decide (i = j)) [n]) = [] := by simp [hne]
      rw [h2, List.append_nil]

lemma groupIndices_single (shape : List Nat) (ax j : Nat) (h1 : shape.getD ax 0 = 1)
    (hj : j < shape.prod) : groupIndices shape [ax] j = [j] := by
  unfold groupIndices
  have hc : ∀ i ∈ List.range shape.prod,
      (decide (groupKey shape [ax] i = j)) = (decide (i = j)) := by
    intro i hi
    rw [List.mem_range] at hi
    rw [groupKey_single shape ax i h1 hi]
  rw [List.filter_congr hc, filter_range_eq shape.prod j hj]

lemma map_range_getD {α : Type} : ∀ (l : List α) (d : α),
    (List.range l.length).map (fun j => l.getD j d) = l := by
  intro l
  induction l with
  | nil => intro d; rfl
  | cons a t ih =>
    intro d
    rw [List.length_cons, List.range_succ_eq_map, List.map_cons, List.map_map]
    have hcomp : ((fun j => (a :: t).getD j d) ∘ Nat.succ) = (fun j => t.getD j d) := by
      funext m
      simp
    rw [hcomp]
    rw [ih d]
    rfl

lemma foldGroup_sum_single (v : Int) : foldGroup sumPolicyInt (withPositions [v]) = v := by
  simp [foldGroup, sumPolicyInt, sumPolicy, withPositions, posPairs, List.enumFrom]

lemma foldGroup_amax_single (v : FVal) : foldGroup amaxPolicyF (withPositions [v]) = v := by
  cases v <;>
    simp [foldGroup, amaxPolicyF, amaxPolicy, withPositions, posPairs, List.enumFrom,
      IsNan, flt, LowestOrInf]

/-- C8 counterexample: ArgMax over the single length-1 axis of the
tensor [5] returns the index tensor [0], not the input [5], so the
identity-reduction claim fails for a positional reduction operation. -/
theorem C8_length_one_axis_counterexample :
    argMaxReduceInt [1] [0] [5] = [0] ∧ argMaxReduceInt [1] [0] [5] ≠ [5] :=
  ⟨by decide, by decide⟩

/-- C8 amended: for the value-returning reductions Sum and AMax,
reducing over a single axis of length 1 returns the input unchanged;
the positional reductions ArgMax and ArgMin instead return indices. -/
theorem C8_length_one_axis_identity (shape : List Nat) (ax : Nat)
    (data : List Int) (dataF : List FVal) (hax : shape.getD ax 0 = 1)
    (hlen : data.length = shape.prod) (hlenF : dataF.length = shape.prod) :
    sumReduceInt shape [ax] data = data ∧ amaxReduceF shape [ax] dataF = dataF := by
  have hdp : (dropShape shape [ax]).prod = shape.prod :=
    dropShape_single_prod shape ax hax
  constructor
  · unfold sumReduceInt Reduce
    rw [hdp, ← hlen]
    have hmap : ∀ j ∈ List.range data.length,
        foldGroup sumPolicyInt (withPositions (groupValues shape [ax] data j)) =
          data.getD j default := by
      intro j hj
      rw [List.mem_range] at hj
      rw [hlen] at hj
      have hgv : groupValues shape [ax] data j = [data.getD j default] := by
        unfold groupValues
        rw [groupIndices_single shape ax j hax hj]
        rfl
      rw [hgv, foldGroup_sum_single]
    rw [List.map_congr_left hmap, map_range_getD data default]
  · unfold amaxReduceF Reduce
    rw [hdp, ← hlenF]
    have hmap : ∀ j ∈ List.range dataF.length,
        foldGroup amaxPolicyF (withPositions (groupValues shape [ax] dataF j)) =
          dataF.getD j default := by
      intro j hj
      rw [List.mem_range] at hj
      rw [hlenF] at hj
      have hgv : groupValues shape [ax] dataF j = [dataF.getD j default] := by
        unfold groupValues
        rw [groupIndices_single shape ax j hax hj]
        rfl
      rw [hgv, foldGroup_amax_single]
    rw [List.map_congr_left hmap, map_range_getD dataF default]

/-- C8 witness: reducing the length-1 axis 1 of a shape (2,1) tensor
leaves the Sum and AMax inputs unchanged. -/
theorem C8_length_one_axis_identity_witness :
    (([2, 1] : List Nat).getD 1 0 = 1 ∧
      ([7, 8] : List Int).length = ([2, 1] : List Nat).prod ∧
      ([FVal.fin 7, FVal.fin 8] : List FVal).length = ([2, 1] : List Nat).prod) ∧
    sumReduceInt [2, 1] [1] [7, 8] = [7, 8] ∧
    amaxReduceF [2, 1] [1] [FVal.fin 7, FVal.fin 8] = [FVal.fin 7, FVal.fin 8] :=
  ⟨⟨by decide, by decide, by decide⟩,
   (C8_length_one_axis_identity [2, 1] 1 [7, 8] [FVal.fin 7, FVal.fin 8]
      (by decide) (by decide) (by decide)).1,
   (C8_length_one_axis_identity [2, 1] 1 [7, 8] [FVal.fin 7, FVal.fin 8]
      (by decide) (by decide) (by decide)).2⟩

end ChainerxReduction
